import Mathlib

/-!
Formal model of the linear-model fitting and interval-estimation core of the
`fit_models` repository (notebook `Linear_Models.ipynb`).

The notebook fits ordinary and weighted least-squares models and computes
confidence and prediction intervals by hand from the normal equations:

* `s_value = np.linalg.norm(residuals, 2) / np.sqrt(n - p)`
* `s_squared_value = sum(y_weights * residuals**2) / (n - p)`
* `inner_sqrt_term = (q.T @ np.linalg.inv(X.T @ W @ X) @ q)[0,0]` (the leverage)
* `one_sided_CL_magnitude = t.ppf(1 - alpha/2, n-p) * s_value * np.sqrt(inner_sqrt_term)`
* `one_sided_PL_magnitude = t.ppf(1 - alpha/2, n-p) * s_value * np.sqrt(1 + inner_sqrt_term)`
* weighted variants `t * np.sqrt(s_squared_value * inner_sqrt_term)` and
  `t * np.sqrt(s_squared_value + s_squared_value * inner_sqrt_term)`.

Real numbers stand in for IEEE floats.  The matrix layer is stated over an
arbitrary field so that the same definitions serve the rational (executable)
and real (analytic) developments.
-/

namespace FitModels

open Matrix Finset

/-! ## Scalar interval formulas (from the notebook cells) -/

/-- The Euclidean 2-norm `np.linalg.norm(r, 2)` of a residual vector. -/
noncomputable def normTwo {n : ℕ} (r : Fin n → ℝ) : ℝ :=
  Real.sqrt (∑ i, r i ^ 2)

/-- The notebook's `s_value = np.linalg.norm(residuals, 2) / np.sqrt(n - p)` (unweighted cells). -/
noncomputable def s_value {n : ℕ} (r : Fin n → ℝ) (p : ℕ) : ℝ :=
  normTwo r / Real.sqrt ((n : ℝ) - (p : ℝ))

/-- The notebook's `one_sided_CL_magnitude = t * s_value * np.sqrt(inner_sqrt_term)`:
confidence-interval half-width of the unweighted path, with the Student-t
critical value `t` abstracted as an argument. -/
noncomputable def one_sided_CL_magnitude (t s h : ℝ) : ℝ :=
  t * s * Real.sqrt h

/-- The notebook's `one_sided_PL_magnitude = t * s_value * np.sqrt(1 + inner_sqrt_term)`:
prediction-interval half-width of the unweighted path. -/
noncomputable def one_sided_PL_magnitude (t s h : ℝ) : ℝ :=
  t * s * Real.sqrt (1 + h)

/-- Weighted cells: `one_sided_CL_magnitude = t * np.sqrt(s_squared_value * inner_sqrt_term)`. -/
noncomputable def weighted_CL_magnitude (t s2 h : ℝ) : ℝ :=
  t * Real.sqrt (s2 * h)

/-- Weighted cells:
`one_sided_PL_magnitude = t * np.sqrt(s_squared_value + s_squared_value * inner_sqrt_term)`. -/
noncomputable def weighted_PL_magnitude (t s2 h : ℝ) : ℝ :=
  t * Real.sqrt (s2 + s2 * h)

/-! ## The matrix layer, over an arbitrary field -/

variable {K : Type} [Field K]

/-- Matrix inversion `np.linalg.inv`, written out as the adjugate divided by the
determinant (over a field this agrees with Mathlib's matrix inverse, see
`matInv_eq_inv`, and is executable over `ℚ`). -/
def matInv {p : ℕ} (M : Matrix (Fin p) (Fin p) K) : Matrix (Fin p) (Fin p) K :=
  M.det⁻¹ • M.adjugate

/-- The weighted normal-equations matrix `X.T @ np.diag(w) @ X`. -/
def normalMatrix {n p : ℕ} (X : Matrix (Fin n) (Fin p) K) (w : Fin n → K) :
    Matrix (Fin p) (Fin p) K :=
  Xᵀ * Matrix.diagonal w * X

/-- The fitted coefficients `β = (XᵀWX)⁻¹ XᵀWy` of the (possibly weighted)
normal equations. -/
def beta {n p : ℕ} (X : Matrix (Fin n) (Fin p) K) (w y : Fin n → K) : Fin p → K :=
  (matInv (normalMatrix X w)) *ᵥ (Xᵀ *ᵥ fun i => w i * y i)

/-- The residual vector `r = y - X @ β` of a fit. -/
def residuals {n p : ℕ} (X : Matrix (Fin n) (Fin p) K) (w y : Fin n → K) : Fin n → K :=
  fun i => y i - (X *ᵥ beta X w y) i

/-- The notebook's `inner_sqrt_term = q.T @ np.linalg.inv(X.T @ W @ X) @ q`: the
leverage of a query point `q`. -/
def leverage {n p : ℕ} (X : Matrix (Fin n) (Fin p) K) (w : Fin n → K) (q : Fin p → K) : K :=
  q ⬝ᵥ ((matInv (normalMatrix X w)) *ᵥ q)

/-- The notebook's `s_squared_value = sum(w * r**2) / (n - p)` (weighted cells;
with `w = 1` this is the unweighted residual variance). -/
def s_squared_value {n : ℕ} (w r : Fin n → K) (p : ℕ) : K :=
  (∑ i, w i * r i ^ 2) / ((n : K) - (p : K))

/-- The all-ones weight vector: ordinary least squares as the `W = I` special case. -/
def unitWeights (n : ℕ) : Fin n → K := fun _ => 1

/-- The builder `DesignMatrix.build`: an `n × (k+1)` matrix whose column `0` is all ones
(`tools.add_constant` / `np.ones` with assigned columns in the notebook) and
whose column `j+1` is the `j`-th supplied predictor vector. -/
def build {n : ℕ} (cols : List (Fin n → K)) :
    Matrix (Fin n) (Fin (cols.length + 1)) K :=
  Matrix.of fun i => Fin.cons (1 : K) (fun k => cols.get k i)

/-! ## The solver contract (spec §4.2, §7) -/

/-- The error taxonomy of the spec (§7). -/
inductive FitError
  | DimensionMismatch
  | InsufficientSamples
  | InvalidWeight
  | DegenerateDesign
  | SingularDesign
  | InvalidSignificance
deriving DecidableEq

/-- The payload of a successful fit (§3): coefficients, retained normal-equations
inverse, residual vector, and residual variance. -/
structure FitResult (n p : ℕ) where
  coefficients : Fin p → ℚ
  normalInverse : Matrix (Fin p) (Fin p) ℚ
  residualVector : Fin n → ℚ
  sSquared : ℚ

/-- Modelled from the spec: `LeastSquaresSolver.fit`.  The notebook delegates the
actual fitting to external libraries and performs no validity checking of its
own, so the guards and their errors are taken from §4.2 and §7 of the spec:
`InsufficientSamples` for `n < p`, `DegenerateDesign` for `n = p` (zero degrees
of freedom), `InvalidWeight` for a non-positive weight, `SingularDesign` for a
non-invertible normal-equations matrix; otherwise the weighted normal equations
are solved and a complete `FitResult` is returned. -/
def fit (n p : ℕ) (X : Matrix (Fin n) (Fin p) ℚ) (y w : Fin n → ℚ) :
    Except FitError (FitResult n p) :=
  if n < p then .error .InsufficientSamples
  else if n = p then .error .DegenerateDesign
  else if ¬ (∀ i, 0 < w i) then .error .InvalidWeight
  else if (normalMatrix X w).det = 0 then .error .SingularDesign
  else .ok ⟨beta X w y, matInv (normalMatrix X w), residuals X w y,
            s_squared_value w (residuals X w y) p⟩

/-- Modelled from the spec: the critical value `t = ppf(1 - significance / 2)`,
where `ppf` is the Student-t quantile function (inverse CDF) at `n - p` degrees
of freedom.  The quantile itself is supplied by an external statistical
capability (`scipy.stats.t.ppf`, spec §6), so it is abstracted as a function
argument here. -/
noncomputable def criticalValue (ppf : ℝ → ℝ) (significance : ℝ) : ℝ :=
  ppf (1 - significance / 2)

/-! ## The two univariate code paths compared in the notebook (claim C9) -/

/-- The arithmetic mean of a sample, `np.mean`. -/
noncomputable def mean {n : ℕ} (v : Fin n → ℝ) : ℝ := (∑ i, v i) / (n : ℝ)

/-- Modelled from the spec: the slope reported by `scipy.stats.linregress`,
an external library call, computed by its documented closed form
`Σ(xᵢ-x̄)(yᵢ-ȳ) / Σ(xᵢ-x̄)²`. -/
noncomputable def linregress_slope {n : ℕ} (x y : Fin n → ℝ) : ℝ :=
  (∑ i, (x i - mean x) * (y i - mean y)) / (∑ i, (x i - mean x) ^ 2)

/-- Modelled from the spec: the intercept reported by `scipy.stats.linregress`,
`ȳ - slope · x̄`. -/
noncomputable def linregress_intercept {n : ℕ} (x y : Fin n → ℝ) : ℝ :=
  mean y - linregress_slope x y * mean x

/-- The univariate design matrix `x_design = tools.add_constant(x)`. -/
def design {n : ℕ} (x : Fin n → K) : Matrix (Fin n) (Fin 2) K := build [x]

/-- The point estimate `y_estimated = x_to_predict * slope + intercept` (the manual scipy path). -/
noncomputable def manual_estimate {n : ℕ} (x y : Fin n → ℝ) (xq : ℝ) : ℝ :=
  xq * linregress_slope x y + linregress_intercept x y

/-- The residual vector `residuals = y_row - (x_row * slope + intercept)` (the manual scipy path). -/
noncomputable def manual_residuals {n : ℕ} (x y : Fin n → ℝ) : Fin n → ℝ :=
  fun i => y i - (x i * linregress_slope x y + linregress_intercept x y)

/-- Confidence half-width of the manual scipy path at query `(1, xq)`:
`t * s_value * np.sqrt(inner_sqrt_term)`. -/
noncomputable def manual_CL {n : ℕ} (t : ℝ) (x y : Fin n → ℝ) (xq : ℝ) : ℝ :=
  one_sided_CL_magnitude t (s_value (manual_residuals x y) 2)
    (leverage (design x) (unitWeights n) ![1, xq])

/-- Prediction half-width of the manual scipy path at query `(1, xq)`:
`t * s_value * np.sqrt(1 + inner_sqrt_term)`. -/
noncomputable def manual_PL {n : ℕ} (t : ℝ) (x y : Fin n → ℝ) (xq : ℝ) : ℝ :=
  one_sided_PL_magnitude t (s_value (manual_residuals x y) 2)
    (leverage (design x) (unitWeights n) ![1, xq])

/-- Modelled from the spec: `predicted_mean` of the `statsmodels` OLS
`get_prediction` path, an external library call: `qᵀ β` with `β` solving the
normal equations. -/
noncomputable def sm_estimate {n : ℕ} (x y : Fin n → ℝ) (q : Fin 2 → ℝ) : ℝ :=
  q ⬝ᵥ beta (design x) (unitWeights n) y

/-- Modelled from the spec: the residual variance used by `statsmodels` OLS,
`Σ(yᵢ - xᵢᵀβ)² / (n - p)`. -/
noncomputable def sm_s_squared {n : ℕ} (x y : Fin n → ℝ) : ℝ :=
  s_squared_value (unitWeights n) (residuals (design x) (unitWeights n) y) 2

/-- Modelled from the spec: `mean_ci_upper - predicted_mean` of the
`statsmodels` `get_prediction` path, `t · sqrt(s² · h)`. -/
noncomputable def sm_CL {n : ℕ} (t : ℝ) (x y : Fin n → ℝ) (q : Fin 2 → ℝ) : ℝ :=
  t * Real.sqrt (sm_s_squared x y * leverage (design x) (unitWeights n) q)

/-- Modelled from the spec: `obs_ci_upper - predicted_mean` of the
`statsmodels` `get_prediction` path, `t · sqrt(s² · (1 + h))`. -/
noncomputable def sm_PL {n : ℕ} (t : ℝ) (x y : Fin n → ℝ) (q : Fin 2 → ℝ) : ℝ :=
  t * Real.sqrt (sm_s_squared x y * (1 + leverage (design x) (unitWeights n) q))

/-! ## Concrete inputs for witnesses and counterexamples -/

/-- A 2-sample, 1-parameter design: a lone intercept column. -/
def onesColumn2 : Matrix (Fin 2) (Fin 1) ℝ := Matrix.of fun _ _ => 1

/-- A concrete observation vector. -/
def obs2 : Fin 2 → ℝ := ![1, 2]

/-- A constant observation vector, fitted exactly by `onesColumn2`. -/
def flat2 : Fin 2 → ℝ := fun _ => 1

/-- A concrete strictly positive weight vector. -/
def wpos2 : Fin 2 → ℝ := ![1, 2]

/-- A concrete length-1 query vector. -/
def q1 : Fin 1 → ℝ := ![1]

/-- A concrete rational design matrix (intercept plus slope on two samples). -/
def qX22 : Matrix (Fin 2) (Fin 2) ℚ := !![1, 0; 1, 1]

/-- A concrete rational observation vector. -/
def qY2 : Fin 2 → ℚ := ![3, 5]

/-- A concrete 1-sample, 1-parameter rational design. -/
def qX11 : Matrix (Fin 1) (Fin 1) ℚ := !![1]

/-- A concrete 1-sample, 2-parameter rational design. -/
def qX12 : Matrix (Fin 1) (Fin 2) ℚ := !![1, 1]

/-- A concrete length-1 rational observation/weight vector. -/
def qY1 : Fin 1 → ℚ := ![1]

/-- A concrete univariate predictor sample for the C9 witness. -/
def px3 : Fin 3 → ℝ := ![0, 1, 2]

/-- A concrete univariate observation sample for the C9 witness. -/
def py3 : Fin 3 → ℝ := ![0, 2, 3]

/-! ## Basic helper lemmas -/

theorem matInv_eq_inv {p : ℕ} (M : Matrix (Fin p) (Fin p) K) : matInv M = M⁻¹ := by
  rw [matInv, Matrix.inv_def, Ring.inverse_eq_inv]

theorem normalMatrix_one {n p : ℕ} (X : Matrix (Fin n) (Fin p) K) :
    normalMatrix X (unitWeights n) = Xᵀ * X := by
  have h1 : Matrix.diagonal (unitWeights n (K := K)) = 1 := Matrix.diagonal_one
  rw [normalMatrix, h1, Matrix.mul_one]

theorem s_value_nonneg {n : ℕ} (r : Fin n → ℝ) (p : ℕ) : 0 ≤ s_value r p :=
  div_nonneg (Real.sqrt_nonneg _) (Real.sqrt_nonneg _)

theorem s_value_sq {n : ℕ} (r : Fin n → ℝ) {p : ℕ} (hnp : p < n) :
    (s_value r p) ^ 2 = (∑ i, r i ^ 2) / ((n : ℝ) - (p : ℝ)) := by
  have hnum : (0 : ℝ) ≤ ∑ i, r i ^ 2 := Finset.sum_nonneg fun i _ => sq_nonneg _
  have hden : (0 : ℝ) ≤ (n : ℝ) - (p : ℝ) := by
    have : (p : ℝ) < (n : ℝ) := by exact_mod_cast hnp
    linarith
  rw [s_value, normTwo, div_pow, Real.sq_sqrt hnum, Real.sq_sqrt hden]

theorem normalMatrix_posSemidef {n p : ℕ} (X : Matrix (Fin n) (Fin p) ℝ) {w : Fin n → ℝ}
    (hw : ∀ i, 0 ≤ w i) : (normalMatrix X w).PosSemidef := by
  have hd : (Matrix.diagonal w).PosSemidef := Matrix.PosSemidef.diagonal fun i => hw i
  have h2 := hd.conjTranspose_mul_mul_same X
  rw [Matrix.conjTranspose_eq_transpose_of_trivial] at h2
  exact h2

theorem leverage_nonneg {n p : ℕ} (X : Matrix (Fin n) (Fin p) ℝ) {w : Fin n → ℝ}
    (hw : ∀ i, 0 ≤ w i) (q : Fin p → ℝ) : 0 ≤ leverage X w q := by
  have hinv := (normalMatrix_posSemidef X hw).inv
  have h2 := hinv.2 q
  rw [show star q = q from funext fun i => star_trivial (q i)] at h2
  rw [leverage, matInv_eq_inv]
  exact h2

theorem s_squared_value_nonneg {n p : ℕ} {w : Fin n → ℝ} (r : Fin n → ℝ)
    (hw : ∀ i, 0 ≤ w i) : 0 ≤ (n : ℝ) - (p : ℝ) → 0 ≤ s_squared_value w r p := fun hden =>
  div_nonneg (Finset.sum_nonneg fun i _ => mul_nonneg (hw i) (sq_nonneg _)) hden

theorem mul_sqrt_eq {s : ℝ} (t h : ℝ) (hs : 0 ≤ s) :
    t * s * Real.sqrt h = t * Real.sqrt (s ^ 2 * h) := by
  rw [Real.sqrt_mul (sq_nonneg s), Real.sqrt_sq hs, mul_assoc]

/-! ## The claims -/

/-- C8: `DesignMatrix.build` returns a matrix whose column `0` is all ones and
whose column `j + 1` is the `j`-th supplied predictor vector, in the order
supplied. -/
theorem build_columns {n : ℕ} (cols : List (Fin n → K)) (i : Fin n) :
    build cols i 0 = 1 ∧ ∀ k : Fin cols.length, build cols i k.succ = cols.get k i :=
  ⟨by simp [build], fun k => by simp [build]⟩

/-- C3: the residual variance estimate of a fit on residuals `r = y - Xβ`:
the unweighted `s_value` squares to `‖r‖₂² / (n - p)`, and the weighted
`s_squared_value` equals `Σᵢ wᵢ rᵢ² / (n - p)`. -/
theorem fit_residual_variance {n p : ℕ} (X : Matrix (Fin n) (Fin p) ℝ)
    (w y : Fin n → ℝ) (hnp : p < n) :
    (s_value (residuals X (unitWeights n) y) p) ^ 2
      = (∑ i, (y i - (X *ᵥ beta X (unitWeights n) y) i) ^ 2) / ((n : ℝ) - (p : ℝ))
    ∧ s_squared_value w (residuals X w y) p
      = (∑ i, w i * (y i - (X *ᵥ beta X w y) i) ^ 2) / ((n : ℝ) - (p : ℝ)) :=
  ⟨s_value_sq _ hnp, rfl⟩

/-- Witness for C3 at a concrete two-sample intercept-only fit. -/
theorem fit_residual_variance_witness :
    (s_value (residuals onesColumn2 (unitWeights 2) obs2) 1) ^ 2
      = (∑ i, (obs2 i - (onesColumn2 *ᵥ beta onesColumn2 (unitWeights 2) obs2) i) ^ 2)
          / (((2 : ℕ) : ℝ) - ((1 : ℕ) : ℝ))
    ∧ s_squared_value wpos2 (residuals onesColumn2 wpos2 obs2) 1
      = (∑ i, wpos2 i * (obs2 i - (onesColumn2 *ᵥ beta onesColumn2 wpos2 obs2) i) ^ 2)
          / (((2 : ℕ) : ℝ) - ((1 : ℕ) : ℝ)) :=
  fit_residual_variance onesColumn2 wpos2 obs2 (by norm_num)

/-- C1: both confidence-interval half-widths computed by the code — the
unweighted `t * s_value * sqrt(h)` and the weighted `t * sqrt(s² * h)` — equal
`t · sqrt(s² · h)` with `s²` the residual-variance estimate and `h` the
leverage of the query point. -/
theorem estimate_cl_formula {n p : ℕ} (X : Matrix (Fin n) (Fin p) ℝ)
    (w y : Fin n → ℝ) (q : Fin p → ℝ) (hnp : p < n) (t : ℝ) :
    one_sided_CL_magnitude t (s_value (residuals X (unitWeights n) y) p)
        (leverage X (unitWeights n) q)
      = t * Real.sqrt ((∑ i, residuals X (unitWeights n) y i ^ 2) / ((n : ℝ) - (p : ℝ))
          * leverage X (unitWeights n) q)
    ∧ weighted_CL_magnitude t (s_squared_value w (residuals X w y) p) (leverage X w q)
      = t * Real.sqrt (s_squared_value w (residuals X w y) p * leverage X w q) := by
  constructor
  · rw [one_sided_CL_magnitude, mul_sqrt_eq t _ (s_value_nonneg _ _), s_value_sq _ hnp]
  · rfl

/-- Witness for C1 at a concrete two-sample intercept-only fit. -/
theorem estimate_cl_formula_witness :
    one_sided_CL_magnitude 2 (s_value (residuals onesColumn2 (unitWeights 2) obs2) 1)
        (leverage onesColumn2 (unitWeights 2) q1)
      = 2 * Real.sqrt ((∑ i, residuals onesColumn2 (unitWeights 2) obs2 i ^ 2)
          / (((2 : ℕ) : ℝ) - ((1 : ℕ) : ℝ)) * leverage onesColumn2 (unitWeights 2) q1)
    ∧ weighted_CL_magnitude 2 (s_squared_value wpos2 (residuals onesColumn2 wpos2 obs2) 1)
        (leverage onesColumn2 wpos2 q1)
      = 2 * Real.sqrt (s_squared_value wpos2 (residuals onesColumn2 wpos2 obs2) 1
          * leverage onesColumn2 wpos2 q1) :=
  estimate_cl_formula onesColumn2 wpos2 obs2 q1 (by norm_num) 2

/-- C2: both prediction-interval half-widths computed by the code — the
unweighted `t * s_value * sqrt(1 + h)` and the weighted
`t * sqrt(s² + s² * h)` — equal `t · sqrt(s² · (1 + h))` with `s²` the
residual-variance estimate and `h` the leverage of the query point. -/
theorem estimate_pl_formula {n p : ℕ} (X : Matrix (Fin n) (Fin p) ℝ)
    (w y : Fin n → ℝ) (q : Fin p → ℝ) (hnp : p < n) (t : ℝ) :
    one_sided_PL_magnitude t (s_value (residuals X (unitWeights n) y) p)
        (leverage X (unitWeights n) q)
      = t * Real.sqrt ((∑ i, residuals X (unitWeights n) y i ^ 2) / ((n : ℝ) - (p : ℝ))
          * (1 + leverage X (unitWeights n) q))
    ∧ weighted_PL_magnitude t (s_squared_value w (residuals X w y) p) (leverage X w q)
      = t * Real.sqrt (s_squared_value w (residuals X w y) p
          * (1 + leverage X w q)) := by
  constructor
  · rw [one_sided_PL_magnitude, mul_sqrt_eq t _ (s_value_nonneg _ _), s_value_sq _ hnp]
  · rw [weighted_PL_magnitude,
      show s_squared_value w (residuals X w y) p
            + s_squared_value w (residuals X w y) p * leverage X w q
          = s_squared_value w (residuals X w y) p * (1 + leverage X w q) by ring]

/-- Witness for C2 at a concrete two-sample intercept-only fit. -/
theorem estimate_pl_formula_witness :
    one_sided_PL_magnitude 2 (s_value (residuals onesColumn2 (unitWeights 2) obs2) 1)
        (leverage onesColumn2 (unitWeights 2) q1)
      = 2 * Real.sqrt ((∑ i, residuals onesColumn2 (unitWeights 2) obs2 i ^ 2)
          / (((2 : ℕ) : ℝ) - ((1 : ℕ) : ℝ)) * (1 + leverage onesColumn2 (unitWeights 2) q1))
    ∧ weighted_PL_magnitude 2 (s_squared_value wpos2 (residuals onesColumn2 wpos2 obs2) 1)
        (leverage onesColumn2 wpos2 q1)
      = 2 * Real.sqrt (s_squared_value wpos2 (residuals onesColumn2 wpos2 obs2) 1
          * (1 + leverage onesColumn2 wpos2 q1)) :=
  estimate_pl_formula onesColumn2 wpos2 obs2 q1 (by norm_num) 2

/-- C4 (amended): the prediction-interval half-width strictly exceeds the
confidence-interval half-width whenever the critical value is positive and the
residual vector is nonzero (`s > 0`); with zero residuals the two half-widths
coincide (see the counterexample). -/
theorem pl_gt_cl {n p : ℕ} (t h : ℝ) (r : Fin n → ℝ) (ht : 0 < t) (hh : 0 ≤ h)
    (hnp : p < n) (hr : (∑ i, r i ^ 2) ≠ 0) :
    one_sided_CL_magnitude t (s_value r p) h
      < one_sided_PL_magnitude t (s_value r p) h := by
  have hsum : 0 < ∑ i, r i ^ 2 :=
    lt_of_le_of_ne (Finset.sum_nonneg fun i _ => sq_nonneg _) (Ne.symm hr)
  have hcast : (p : ℝ) < (n : ℝ) := by exact_mod_cast hnp
  have hden : (0 : ℝ) < (n : ℝ) - (p : ℝ) := by linarith
  have hs : 0 < s_value r p :=
    div_pos (Real.sqrt_pos.mpr hsum) (Real.sqrt_pos.mpr hden)
  have hlt : Real.sqrt h < Real.sqrt (1 + h) := Real.sqrt_lt_sqrt hh (by linarith)
  have hts : 0 < t * s_value r p := mul_pos ht hs
  show t * s_value r p * Real.sqrt h < t * s_value r p * Real.sqrt (1 + h)
  exact (mul_lt_mul_left hts).mpr hlt

/-- Witness for the amended C4 at a concrete nonzero residual vector. -/
theorem pl_gt_cl_witness :
    one_sided_CL_magnitude 1 (s_value obs2 1) 0
      < one_sided_PL_magnitude 1 (s_value obs2 1) 0 :=
  pl_gt_cl 1 0 obs2 (by norm_num) (by norm_num) (by norm_num)
    (by norm_num [obs2, Fin.sum_univ_two])

/-- C4 counterexample: fitting the two-sample intercept-only design to constant
observations leaves zero residuals, so at critical value `2` and the query
`(1)` both half-widths are `0` and the claimed strict inequality fails. -/
theorem pl_gt_cl_counterexample :
    ¬ (one_sided_CL_magnitude 2 (s_value (residuals onesColumn2 (unitWeights 2) flat2) 1)
          (leverage onesColumn2 (unitWeights 2) q1)
        < one_sided_PL_magnitude 2 (s_value (residuals onesColumn2 (unitWeights 2) flat2) 1)
          (leverage onesColumn2 (unitWeights 2) q1)) := by
  have hres : residuals onesColumn2 (unitWeights 2) flat2 = fun _ => 0 := by
    funext i
    simp [residuals, beta, matInv, normalMatrix, onesColumn2, flat2, unitWeights,
          Matrix.mulVec, Matrix.dotProduct, Matrix.mul_apply, Matrix.det_fin_one,
          Matrix.adjugate_fin_one, Fin.sum_univ_two, Fin.sum_univ_one,
          Matrix.diagonal, Matrix.one_apply]
  have hs0 : s_value (residuals onesColumn2 (unitWeights 2) flat2) 1 = 0 := by
    rw [hres]
    simp [s_value, normTwo, Fin.sum_univ_two]
  rw [hs0]
  show ¬ ((2 : ℝ) * 0 * Real.sqrt _ < (2 : ℝ) * 0 * Real.sqrt _)
  simp

/-- C10: with strictly positive weights and an invertible normal-equations
matrix, the leverage of every query point is non-negative; hence the arguments
of both square roots in the weighted interval formulas are non-negative and
both half-widths are non-negative real numbers, for any non-negative critical
value and residual variance. -/
theorem leverage_safety {n p : ℕ} (X : Matrix (Fin n) (Fin p) ℝ) {w : Fin n → ℝ}
    (hw : ∀ i, 0 < w i) (_hdet : IsUnit (normalMatrix X w).det) (q : Fin p → ℝ)
    (t s2 : ℝ) (ht : 0 ≤ t) (hs2 : 0 ≤ s2) :
    0 ≤ leverage X w q
    ∧ 0 ≤ s2 * leverage X w q
    ∧ 0 ≤ s2 + s2 * leverage X w q
    ∧ 0 ≤ weighted_CL_magnitude t s2 (leverage X w q)
    ∧ 0 ≤ weighted_PL_magnitude t s2 (leverage X w q) := by
  have hh := leverage_nonneg X (fun i => (hw i).le) q
  exact ⟨hh, mul_nonneg hs2 hh, add_nonneg hs2 (mul_nonneg hs2 hh),
    mul_nonneg ht (Real.sqrt_nonneg _), mul_nonneg ht (Real.sqrt_nonneg _)⟩

/-- Witness for C10 at a concrete weighted two-sample fit. -/
theorem leverage_safety_witness :
    0 ≤ leverage onesColumn2 wpos2 q1
    ∧ 0 ≤ (1 : ℝ) * leverage onesColumn2 wpos2 q1
    ∧ 0 ≤ (1 : ℝ) + 1 * leverage onesColumn2 wpos2 q1
    ∧ 0 ≤ weighted_CL_magnitude 1 1 (leverage onesColumn2 wpos2 q1)
    ∧ 0 ≤ weighted_PL_magnitude 1 1 (leverage onesColumn2 wpos2 q1) :=
  leverage_safety onesColumn2 (by intro i; fin_cases i <;> norm_num [wpos2])
    (by
      rw [isUnit_iff_ne_zero]
      norm_num [normalMatrix, Matrix.det_fin_one, Matrix.mul_apply, Matrix.diagonal,
        onesColumn2, wpos2, Fin.sum_univ_two])
    q1 1 1 zero_le_one zero_le_one

/-- C7: for a fixed fit (`s`, `s²`) and fixed query leverage `h`, each of the
four half-width formulas evaluated at significance `a` is at least its value at
significance `b` whenever `a ≤ b` in `(0, 1)`, because the Student-t quantile
is monotone. -/
theorem halfwidths_antitone_in_significance (ppf : ℝ → ℝ) (hmono : Monotone ppf)
    (a b : ℝ) (_ha : 0 < a) (hab : a ≤ b) (_hb : b < 1) (s s2 h : ℝ)
    (hs : 0 ≤ s) (_hs2 : 0 ≤ s2) :
    one_sided_CL_magnitude (criticalValue ppf b) s h
        ≤ one_sided_CL_magnitude (criticalValue ppf a) s h
    ∧ one_sided_PL_magnitude (criticalValue ppf b) s h
        ≤ one_sided_PL_magnitude (criticalValue ppf a) s h
    ∧ weighted_CL_magnitude (criticalValue ppf b) s2 h
        ≤ weighted_CL_magnitude (criticalValue ppf a) s2 h
    ∧ weighted_PL_magnitude (criticalValue ppf b) s2 h
        ≤ weighted_PL_magnitude (criticalValue ppf a) s2 h := by
  have hle : criticalValue ppf b ≤ criticalValue ppf a := by
    have h2 := hmono (show (1 : ℝ) - b / 2 ≤ 1 - a / 2 by linarith)
    simpa [criticalValue] using h2
  refine ⟨?_, ?_, ?_, ?_⟩
  · exact mul_le_mul_of_nonneg_right (mul_le_mul_of_nonneg_right hle hs) (Real.sqrt_nonneg _)
  · exact mul_le_mul_of_nonneg_right (mul_le_mul_of_nonneg_right hle hs) (Real.sqrt_nonneg _)
  · exact mul_le_mul_of_nonneg_right hle (Real.sqrt_nonneg _)
  · exact mul_le_mul_of_nonneg_right hle (Real.sqrt_nonneg _)

/-- Witness for C7 at the identity in place of the abstract quantile and
significance levels 1/4 ≤ 1/2. -/
theorem halfwidths_antitone_witness :
    one_sided_CL_magnitude (criticalValue (fun x => x) (1 / 2)) 1 1
        ≤ one_sided_CL_magnitude (criticalValue (fun x => x) (1 / 4)) 1 1
    ∧ one_sided_PL_magnitude (criticalValue (fun x => x) (1 / 2)) 1 1
        ≤ one_sided_PL_magnitude (criticalValue (fun x => x) (1 / 4)) 1 1
    ∧ weighted_CL_magnitude (criticalValue (fun x => x) (1 / 2)) 1 1
        ≤ weighted_CL_magnitude (criticalValue (fun x => x) (1 / 4)) 1 1
    ∧ weighted_PL_magnitude (criticalValue (fun x => x) (1 / 2)) 1 1
        ≤ weighted_PL_magnitude (criticalValue (fun x => x) (1 / 4)) 1 1 :=
  halfwidths_antitone_in_significance (fun x => x) (fun _ _ huv => huv)
    (1 / 4) (1 / 2) (by norm_num) (by norm_num) (by norm_num) 1 1 1
    zero_le_one zero_le_one

theorem matInv_smul {p : ℕ} (hp : 0 < p) {c : K} (hc : c ≠ 0)
    (M : Matrix (Fin p) (Fin p) K) : matInv (c • M) = c⁻¹ • matInv M := by
  rw [matInv, matInv, Matrix.det_smul, Matrix.adjugate_smul, smul_smul, smul_smul]
  congr 1
  have hkey : (c ^ Fintype.card (Fin p))⁻¹ * c ^ (Fintype.card (Fin p) - 1) = c⁻¹ := by
    rw [Fintype.card_fin, show p = (p - 1) + 1 by omega, pow_succ]
    have hpow : c ^ (p - 1) ≠ 0 := pow_ne_zero _ hc
    field_simp
  rw [mul_inv, mul_comm (c ^ Fintype.card (Fin p))⁻¹ M.det⁻¹, mul_assoc, hkey,
    mul_comm]

/-- C5: fitting with a weight vector that is one identical positive constant
`c` yields the same coefficient vector as the unweighted fit on the same design
and observations. -/
theorem const_weight_fit_eq_unweighted {n p : ℕ} (X : Matrix (Fin n) (Fin p) ℚ)
    (y : Fin n → ℚ) (c : ℚ) (hc : 0 < c) :
    beta X (fun _ => c) y = beta X (unitWeights n) y := by
  rcases Nat.eq_zero_or_pos p with hp | hp
  · subst hp
    funext k
    exact k.elim0
  · have hc0 : c ≠ 0 := ne_of_gt hc
    have hdiag : Matrix.diagonal (fun _ : Fin n => c)
        = c • (1 : Matrix (Fin n) (Fin n) ℚ) := by
      funext i j
      by_cases hij : i = j
      · subst hij
        simp [Matrix.diagonal_apply_eq, Matrix.one_apply_eq]
      · simp [Matrix.diagonal_apply_ne _ hij, Matrix.one_apply_ne hij]
    have hNM : normalMatrix X (fun _ => c) = c • normalMatrix X (unitWeights n) := by
      rw [normalMatrix, hdiag, Matrix.mul_smul, Matrix.mul_one, Matrix.smul_mul,
          normalMatrix_one]
    have hv : (Xᵀ *ᵥ fun i => c * y i) = c • (Xᵀ *ᵥ fun i => unitWeights n i * y i) := by
      rw [show (fun i => c * y i) = c • (fun i => unitWeights n i * y i) from
            funext fun i => by simp [unitWeights], Matrix.mulVec_smul]
    rw [beta, beta, hNM, hv, matInv_smul hp hc0, Matrix.smul_mulVec_assoc,
        Matrix.mulVec_smul, smul_smul, inv_mul_cancel₀ hc0, one_smul]

/-- Witness for C5 at a concrete two-sample, two-parameter fit with `c = 2`. -/
theorem const_weight_fit_eq_unweighted_witness :
    beta qX22 (fun _ => (2 : ℚ)) qY2 = beta qX22 (unitWeights 2) qY2 :=
  const_weight_fit_eq_unweighted qX22 qY2 2 (by norm_num)

/-- C6: the modelled solver rejects a square system (`n = p`) with
`DegenerateDesign`, rejects an underdetermined system (`n < p`) with
`InsufficientSamples`, and returns no `FitResult` in either case. -/
theorem fit_underdetermined {n p : ℕ} (X : Matrix (Fin n) (Fin p) ℚ) (y w : Fin n → ℚ) :
    (n = p → fit n p X y w = Except.error FitError.DegenerateDesign)
    ∧ (n < p → fit n p X y w = Except.error FitError.InsufficientSamples)
    ∧ (n ≤ p → ∀ R : FitResult n p, fit n p X y w ≠ Except.ok R) := by
  refine ⟨fun h => ?_, fun h => ?_, fun h R => ?_⟩
  · rw [fit, if_neg (by omega : ¬ n < p), if_pos h]
  · rw [fit, if_pos h]
  · rcases Nat.lt_or_ge n p with h1 | h1
    · rw [fit, if_pos h1]
      simp
    · have h2 : n = p := le_antisymm h h1
      rw [fit, if_neg (by omega : ¬ n < p), if_pos h2]
      simp

/-- Witness for C6: a square 1×1 system fails with `DegenerateDesign` and a
1×2 underdetermined system fails with `InsufficientSamples`; add that neither
returns a `FitResult`. -/
theorem fit_underdetermined_witness :
    fit 1 1 qX11 qY1 qY1 = Except.error FitError.DegenerateDesign
    ∧ fit 1 2 qX12 qY1 qY1 = Except.error FitError.InsufficientSamples
    ∧ ∀ R : FitResult 1 2, fit 1 2 qX12 qY1 qY1 ≠ Except.ok R :=
  ⟨(fit_underdetermined qX11 qY1 qY1).1 rfl,
   (fit_underdetermined qX12 qY1 qY1).2.1 (by norm_num),
   (fit_underdetermined qX12 qY1 qY1).2.2 (by norm_num)⟩

theorem design_zero {n : ℕ} (x : Fin n → K) (i : Fin n) : design x i 0 = 1 := rfl

theorem design_one {n : ℕ} (x : Fin n → K) (i : Fin n) : design x i 1 = x i := rfl

theorem beta_design_zero {n : ℕ} (x y : Fin n → ℝ) :
    beta (design x) (unitWeights n) y 0
      = (normalMatrix (design x) (unitWeights n)).det⁻¹
          * ((∑ i, x i * x i) * (∑ i, y i) - (∑ i, x i) * (∑ i, x i * y i)) := by
  have hM01 : normalMatrix (design x) (unitWeights n) 0 1 = ∑ i, x i := by
    simp [normalMatrix_one, Matrix.mul_apply, design_zero, design_one]
  have hM11 : normalMatrix (design x) (unitWeights n) 1 1 = ∑ i, x i * x i := by
    simp [normalMatrix_one, Matrix.mul_apply, design_one]
  rw [beta, matInv, Matrix.smul_mulVec_assoc, Pi.smul_apply, smul_eq_mul]
  congr 1
  rw [Matrix.adjugate_fin_two]
  simp [Matrix.mulVec, Matrix.dotProduct, Fin.sum_univ_two, design_zero, design_one,
    unitWeights, hM01, hM11]
  ring_nf
  simp only [pow_two, ← Finset.sum_mul, ← Finset.mul_sum]
  ring

theorem beta_design_one {n : ℕ} (x y : Fin n → ℝ) :
    beta (design x) (unitWeights n) y 1
      = (normalMatrix (design x) (unitWeights n)).det⁻¹
          * ((n : ℝ) * (∑ i, x i * y i) - (∑ i, x i) * (∑ i, y i)) := by
  have hM00 : normalMatrix (design x) (unitWeights n) 0 0 = (n : ℝ) := by
    simp [normalMatrix_one, Matrix.mul_apply, design_zero]
  have hM10 : normalMatrix (design x) (unitWeights n) 1 0 = ∑ i, x i := by
    simp [normalMatrix_one, Matrix.mul_apply, design_zero, design_one]
  rw [beta, matInv, Matrix.smul_mulVec_assoc, Pi.smul_apply, smul_eq_mul]
  congr 1
  rw [Matrix.adjugate_fin_two]
  simp [Matrix.mulVec, Matrix.dotProduct, Fin.sum_univ_two, design_zero, design_one,
    unitWeights, hM00, hM10]
  ring

theorem normalMatrix_design_det {n : ℕ} (x : Fin n → ℝ) :
    (normalMatrix (design x) (unitWeights n)).det
      = (n : ℝ) * (∑ i, x i * x i) - (∑ i, x i) * (∑ i, x i) := by
  have hM00 : normalMatrix (design x) (unitWeights n) 0 0 = (n : ℝ) := by
    simp [normalMatrix_one, Matrix.mul_apply, design_zero]
  have hM01 : normalMatrix (design x) (unitWeights n) 0 1 = ∑ i, x i := by
    simp [normalMatrix_one, Matrix.mul_apply, design_zero, design_one]
  have hM10 : normalMatrix (design x) (unitWeights n) 1 0 = ∑ i, x i := by
    simp [normalMatrix_one, Matrix.mul_apply, design_zero, design_one]
  have hM11 : normalMatrix (design x) (unitWeights n) 1 1 = ∑ i, x i * x i := by
    simp [normalMatrix_one, Matrix.mul_apply, design_one]
  rw [Matrix.det_fin_two, hM00, hM01, hM10, hM11]

theorem sum_centered_mul {n : ℕ} (x y : Fin n → ℝ) (hn : (n : ℝ) ≠ 0) :
    (∑ i, (x i - mean x) * (y i - mean y))
      = (∑ i, x i * y i) - (∑ i, x i) * (∑ i, y i) / (n : ℝ) := by
  have hexp : ∀ i : Fin n, (x i - mean x) * (y i - mean y)
      = x i * y i - mean x * y i - (mean y * x i - mean x * mean y) := by
    intro i; ring
  rw [Finset.sum_congr rfl fun i _ => hexp i, Finset.sum_sub_distrib,
      Finset.sum_sub_distrib, Finset.sum_sub_distrib, ← Finset.mul_sum,
      ← Finset.mul_sum, Finset.sum_const, Finset.card_univ, Fintype.card_fin,
      nsmul_eq_mul, mean, mean]
  field_simp
  ring

theorem sum_centered_sq {n : ℕ} (x : Fin n → ℝ) (hn : (n : ℝ) ≠ 0) :
    (∑ i, (x i - mean x) ^ 2)
      = (∑ i, x i * x i) - (∑ i, x i) * (∑ i, x i) / (n : ℝ) := by
  rw [Finset.sum_congr rfl fun i _ => pow_two (x i - mean x)]
  exact sum_centered_mul x x hn

theorem intercept_algebra (Nr A B C D : ℝ) (hN : Nr ≠ 0)
    (hC : C - A * A / Nr ≠ 0) :
    (Nr * C - A * A)⁻¹ * (C * B - A * D)
      = B / Nr - (D - A * B / Nr) / (C - A * A / Nr) * (A / Nr) := by
  have hfac : Nr * C - A * A = Nr * (C - A * A / Nr) := by
    field_simp
    ring
  have hdet : Nr * C - A * A ≠ 0 := by
    rw [hfac]
    exact mul_ne_zero hN hC
  have hdet2 : C * Nr - A * A ≠ 0 := by
    rw [mul_comm C Nr]
    exact hdet
  have hdet3 : C * Nr - A ^ 2 ≠ 0 := by
    rw [show A ^ 2 = A * A from pow_two A]
    exact hdet2
  rw [inv_mul_eq_div, div_eq_iff hdet]
  field_simp
  ring

theorem slope_algebra (Nr A B C D : ℝ) (hN : Nr ≠ 0)
    (hC : C - A * A / Nr ≠ 0) :
    (Nr * C - A * A)⁻¹ * (Nr * D - A * B)
      = (D - A * B / Nr) / (C - A * A / Nr) := by
  have hfac : Nr * C - A * A = Nr * (C - A * A / Nr) := by
    field_simp
    ring
  have hdet : Nr * C - A * A ≠ 0 := by
    rw [hfac]
    exact mul_ne_zero hN hC
  have hCd : C - A * A / Nr = (Nr * C - A * A) / Nr := by
    rw [hfac]
    exact (mul_div_cancel_left₀ _ hN).symm
  rw [inv_mul_eq_div, div_eq_iff hdet, hCd, div_div_eq_mul_div,
    div_mul_cancel₀ _ hdet]
  field_simp
  ring

/-- On a non-constant univariate sample the closed-form `linregress`
coefficients coincide with the normal-equations solution on the design matrix
with intercept column. -/
theorem beta_design {n : ℕ} (x y : Fin n → ℝ) (hn : 0 < n)
    (hSxx : (∑ i, (x i - mean x) ^ 2) ≠ 0) :
    beta (design x) (unitWeights n) y
      = ![linregress_intercept x y, linregress_slope x y] := by
  have hN : ((n : ℝ)) ≠ 0 := Nat.cast_ne_zero.mpr hn.ne'
  have hcxx := sum_centered_sq x hN
  have hcxy := sum_centered_mul x y hN
  have hSxx2 : (∑ i, x i * x i) - (∑ i, x i) * (∑ i, x i) / (n : ℝ) ≠ 0 := by
    rw [← hcxx]; exact hSxx
  have hdet_ne : (n : ℝ) * (∑ i, x i * x i) - (∑ i, x i) * (∑ i, x i) ≠ 0 := by
    intro h0
    apply hSxx2
    have h1 : (∑ i, x i * x i) - (∑ i, x i) * (∑ i, x i) / (n : ℝ)
        = ((n : ℝ) * (∑ i, x i * x i) - (∑ i, x i) * (∑ i, x i)) / (n : ℝ) := by
      field_simp
      ring
    rw [h1, h0, zero_div]
  funext k
  fin_cases k
  · show beta (design x) (unitWeights n) y 0 = _
    rw [beta_design_zero, normalMatrix_design_det]
    show _ = linregress_intercept x y
    rw [linregress_intercept, linregress_slope, hcxy, hcxx]
    simp only [mean]
    exact intercept_algebra _ _ _ _ _ hN hSxx2
  · show beta (design x) (unitWeights n) y 1 = _
    rw [beta_design_one, normalMatrix_design_det]
    show _ = linregress_slope x y
    rw [linregress_slope, hcxy, hcxx]
    exact slope_algebra _ _ _ _ _ hN hSxx2

/-- C9: on a univariate sample with more than two observations and
non-constant predictor, the manual normal-equations path (scipy closed-form
coefficients, `t * s * sqrt(h)` and `t * s * sqrt(1 + h)`) and the statsmodels
OLS `get_prediction` path produce equal point estimates, equal
confidence-interval half-widths and equal prediction-interval half-widths. -/
theorem manual_matches_statsmodels {n : ℕ} (x y : Fin n → ℝ) (xq t : ℝ)
    (hn2 : 2 < n) (hSxx : (∑ i, (x i - mean x) ^ 2) ≠ 0) :
    manual_estimate x y xq = sm_estimate x y ![1, xq]
    ∧ manual_CL t x y xq = sm_CL t x y ![1, xq]
    ∧ manual_PL t x y xq = sm_PL t x y ![1, xq] := by
  have hn : 0 < n := by omega
  have hbeta := beta_design x y hn hSxx
  have hres : residuals (design x) (unitWeights n) y = manual_residuals x y := by
    funext i
    simp only [residuals, manual_residuals]
    congr 1
    rw [hbeta]
    simp [Matrix.mulVec, Matrix.dotProduct, Fin.sum_univ_two, design_zero, design_one]
    ring
  have hs2 : sm_s_squared x y
      = (∑ i, manual_residuals x y i ^ 2) / ((n : ℝ) - ((2 : ℕ) : ℝ)) := by
    rw [sm_s_squared, s_squared_value, hres]
    congr 1
    exact Finset.sum_congr rfl fun i _ => one_mul _
  refine ⟨?_, ?_, ?_⟩
  · rw [manual_estimate, sm_estimate, hbeta]
    simp [Matrix.dotProduct, Fin.sum_univ_two]
    ring
  · calc manual_CL t x y xq
        = t * Real.sqrt ((s_value (manual_residuals x y) 2) ^ 2
            * leverage (design x) (unitWeights n) ![1, xq]) :=
          mul_sqrt_eq t _ (s_value_nonneg _ _)
      _ = t * Real.sqrt ((∑ i, manual_residuals x y i ^ 2) / ((n : ℝ) - ((2 : ℕ) : ℝ))
            * leverage (design x) (unitWeights n) ![1, xq]) := by
          rw [s_value_sq _ hn2]
      _ = sm_CL t x y ![1, xq] := by rw [sm_CL, hs2]
  · calc manual_PL t x y xq
        = t * Real.sqrt ((s_value (manual_residuals x y) 2) ^ 2
            * (1 + leverage (design x) (unitWeights n) ![1, xq])) :=
          mul_sqrt_eq t _ (s_value_nonneg _ _)
      _ = t * Real.sqrt ((∑ i, manual_residuals x y i ^ 2) / ((n : ℝ) - ((2 : ℕ) : ℝ))
            * (1 + leverage (design x) (unitWeights n) ![1, xq])) := by
          rw [s_value_sq _ hn2]
      _ = sm_PL t x y ![1, xq] := by rw [sm_PL, hs2]

/-- Witness for C9 on a concrete three-point sample. -/
theorem manual_matches_statsmodels_witness :
    manual_estimate px3 py3 6 = sm_estimate px3 py3 ![1, 6]
    ∧ manual_CL 2 px3 py3 6 = sm_CL 2 px3 py3 ![1, 6]
    ∧ manual_PL 2 px3 py3 6 = sm_PL 2 px3 py3 ![1, 6] :=
  manual_matches_statsmodels px3 py3 6 2 (by norm_num)
    (by norm_num [mean, px3, Fin.sum_univ_three])
